import Mathlib

/-!
# HiddenElector — formal model

Shallow embedding of the `HiddenElector` Solidity contract
(encrypted elections on fhevm).  Euint32 ciphertexts are modelled by
their plaintext value (a `Nat` kept below `2^32`) together with the
"publicly decryptable" ACL flag.  Contract storage is modelled by the
`State` structure; `external` functions become Lean functions
`State → ... → Except Err (result)`, where `Except.error` corresponds
to an EVM revert (all storage writes rolled back, so the caller keeps
the pre-call state).
-/

namespace HiddenElector

/-- `MIN_OPTIONS` constant of the contract. -/
def MIN_OPTIONS : Nat := 2

/-- `MAX_OPTIONS` constant of the contract. -/
def MAX_OPTIONS : Nat := 8

/-- Modulus of `euint32` arithmetic: `FHE.add` on 32-bit ciphertexts wraps. -/
def U32 : Nat := 4294967296

/-- A `euint32` ciphertext: its plaintext value and whether
`FHE.makePubliclyDecryptable` has been applied to it. -/
structure Enc where
  val : Nat
  pub : Bool
deriving DecidableEq, Repr

/-- The `Election` storage struct. Addresses are modelled as `Nat`. -/
structure Election where
  name : String
  endTime : Nat
  finalized : Bool
  creator : Nat
  options : List String
deriving DecidableEq, Repr

/-- Default value of an `Election` storage slot that was never written. -/
def emptyElection : Election :=
  { name := "", endTime := 0, finalized := false, creator := 0, options := [] }

/-- The custom errors declared by the contract. -/
inductive Err where
  | ElectionNotFound
  | InvalidOptionCount
  | EmptyOption
  | InvalidEndTime
  | AlreadyVoted
  | ElectionAlreadyFinalized
  | ElectionOngoing
  | InvalidOption
  | ElectionClosed
deriving DecidableEq, Repr

/-- Contract storage: `_nextElectionId`, `_elections`, `_tallies`
(`none` = uninitialized handle) and `_hasVoted`.  Solidity mappings are
total with default values, modelled as functions. -/
structure State where
  nextElectionId : Nat
  elections : Nat → Election
  tallies : Nat → Nat → Option Enc
  hasVoted : Nat → Nat → Bool

/-- Storage of a freshly deployed contract. -/
def initState : State :=
  { nextElectionId := 0
    elections := fun _ => emptyElection
    tallies := fun _ _ => none
    hasVoted := fun _ _ => false }

/-- Plaintext value FHE.add sees for a tally slot: an uninitialized
handle behaves as encrypted zero. -/
def encVal : Option Enc → Nat
  | none => 0
  | some e => e.val

/-- Whether `FHE.isPubliclyDecryptable` holds for a tally slot
(false for an uninitialized handle). -/
def encPub : Option Enc → Bool
  | none => false
  | some e => e.pub

/-- Plaintext value of the tally accumulator of option `i` of election `id`. -/
def tallyVal (s : State) (electionId i : Nat) : Nat :=
  encVal (s.tallies electionId i)

/-- `_requireElection`: an election exists iff its stored name is non-empty. -/
def requireElection (s : State) (electionId : Nat) : Except Err Election :=
  if (s.elections electionId).name = "" then .error .ElectionNotFound
  else .ok (s.elections electionId)

/-- `_requireValidOption`. -/
def requireValidOption (s : State) (electionId optionIndex : Nat) : Except Err Unit :=
  match requireElection s electionId with
  | .error e => .error e
  | .ok election =>
    if election.options.length ≤ optionIndex then .error .InvalidOption
    else .ok ()

/-- `createElection`: validates inputs in source order (empty name, end
time not in the future, option count, empty option label), then stores
the record under the fresh identifier `_nextElectionId` and increments
the counter.  A revert anywhere (including inside the option loop)
rolls all writes back, so the failing branches simply return the error. -/
def createElection (s : State) (sender now : Nat) (name : String)
    (options : List String) (endTime : Nat) : Except Err (Nat × State) :=
  if name = "" then .error .EmptyOption
  else if endTime ≤ now then .error .InvalidEndTime
  else if options.length < MIN_OPTIONS ∨ MAX_OPTIONS < options.length then
    .error .InvalidOptionCount
  else if options.any (fun o => o = "") then .error .EmptyOption
  else
    .ok (s.nextElectionId,
      { s with
        nextElectionId := s.nextElectionId + 1
        elections := fun j =>
          if j = s.nextElectionId then
            { name := name, endTime := endTime, finalized := false,
              creator := sender, options := options }
          else s.elections j })

/-- The tally-update loop of `vote`: for each option index `i < k`,
`_tallies[id][i] := FHE.add(_tallies[id][i], FHE.select(FHE.eq(choice, i), 1, 0))`.
The freshly produced ciphertext is not publicly decryptable. -/
def voteLoop (t : Nat → Nat → Option Enc) (electionId choice : Nat) :
    Nat → Nat → Nat → Option Enc
  | 0 => t
  | k + 1 => fun j i =>
      if j = electionId ∧ i = k then
        some { val := (encVal (voteLoop t electionId choice k electionId k)
                        + (if choice = k then 1 else 0)) % U32,
               pub := false }
      else voteLoop t electionId choice k j i

/-- `vote`: checks existence, closing time, finalized flag and the
ballot ledger in that order, then runs the compare-select-add loop over
all options and records the ballot.  `choice` is the plaintext of the
verified external ciphertext. -/
def vote (s : State) (sender now electionId choice : Nat) : Except Err State :=
  match requireElection s electionId with
  | .error e => .error e
  | .ok election =>
    if election.endTime ≤ now then .error .ElectionClosed
    else if election.finalized then .error .ElectionAlreadyFinalized
    else if s.hasVoted electionId sender then .error .AlreadyVoted
    else
      .ok { s with
        tallies := voteLoop s.tallies electionId choice election.options.length
        hasVoted := fun j a =>
          if j = electionId ∧ a = sender then true else s.hasVoted j a }

/-- The loop of `finalizeElection`: an uninitialized accumulator is
replaced by encrypted zero, then the accumulator is marked publicly
decryptable (value preserved). -/
def finalizeLoop (t : Nat → Nat → Option Enc) (electionId : Nat) :
    Nat → Nat → Nat → Option Enc
  | 0 => t
  | k + 1 => fun j i =>
      if j = electionId ∧ i = k then
        some { val := encVal (finalizeLoop t electionId k electionId k), pub := true }
      else finalizeLoop t electionId k j i

/-- `finalizeElection`: permissionless; requires the election to exist,
the closing time to have passed and the election not to be finalized;
marks every option's accumulator publicly decryptable and sets the
finalized flag. -/
def finalizeElection (s : State) (sender now electionId : Nat) : Except Err State :=
  match requireElection s electionId with
  | .error e => .error e
  | .ok election =>
    if now < election.endTime then .error .ElectionOngoing
    else if election.finalized then .error .ElectionAlreadyFinalized
    else
      .ok { s with
        tallies := finalizeLoop s.tallies electionId election.options.length
        elections := fun j =>
          if j = electionId then { election with finalized := true }
          else s.elections j }

/-- `getElectionCount`. -/
def getElectionCount (s : State) : Nat :=
  s.nextElectionId

/-- `hasAddressVoted`. -/
def hasAddressVoted (s : State) (electionId voter : Nat) : Except Err Bool :=
  match requireElection s electionId with
  | .error e => .error e
  | .ok _ => .ok (s.hasVoted electionId voter)

/-- `getEncryptedTally`. -/
def getEncryptedTally (s : State) (electionId optionIndex : Nat) :
    Except Err (Option Enc) :=
  match requireValidOption s electionId optionIndex with
  | .error e => .error e
  | .ok _ => .ok (s.tallies electionId optionIndex)

/-- `isTallyPublic`. -/
def isTallyPublic (s : State) (electionId optionIndex : Nat) : Except Err Bool :=
  match requireValidOption s electionId optionIndex with
  | .error e => .error e
  | .ok _ => .ok (encPub (s.tallies electionId optionIndex))

/-- One external call to the contract, made at time `t'` no earlier than
the time `t` of the previous call (block timestamps do not decrease).
Reverting calls leave the storage unchanged, which `tick` covers. -/
inductive Step : State → Nat → State → Nat → Prop
  | create (s : State) (t t' sender : Nat) (name : String) (options : List String)
      (endTime electionId : Nat) (s' : State) :
      t ≤ t' →
      createElection s sender t' name options endTime = .ok (electionId, s') →
      Step s t s' t'
  | voteStep (s : State) (t t' sender electionId choice : Nat) (s' : State) :
      t ≤ t' →
      vote s sender t' electionId choice = .ok s' →
      Step s t s' t'
  | finalizeStep (s : State) (t t' sender electionId : Nat) (s' : State) :
      t ≤ t' →
      finalizeElection s sender t' electionId = .ok s' →
      Step s t s' t'
  | tick (s : State) (t t' : Nat) :
      t ≤ t' →
      Step s t s t'

/-- States reachable from a freshly deployed contract, together with the
timestamp of the latest call. -/
inductive Reachable : State → Nat → Prop
  | init (t : Nat) : Reachable initState t
  | step {s : State} {t : Nat} {s' : State} {t' : Nat} :
      Reachable s t → Step s t s' t' → Reachable s' t'

/-! ## Pointwise characterization of the storage loops -/

/-- The tally-update loop of `vote`, pointwise: every option index below
`k` of the voted election is overwritten with a fresh non-public
ciphertext holding the old value plus the select-delta (mod `2^32`);
every other slot is untouched. -/
theorem voteLoop_apply (t : Nat → Nat → Option Enc) (electionId choice k : Nat) :
    ∀ j i, voteLoop t electionId choice k j i =
      if j = electionId ∧ i < k then
        some { val := (encVal (t electionId i) + (if choice = i then 1 else 0)) % U32,
               pub := false }
      else t j i := by
  induction k with
  | zero => intro j i; simp [voteLoop]
  | succ k ih =>
    intro j i
    have hk : voteLoop t electionId choice k electionId k = t electionId k := by
      rw [ih]; simp
    simp only [voteLoop, hk]
    by_cases hj : j = electionId
    · subst hj
      by_cases hik : i = k
      · subst hik
        simp [Nat.lt_succ_self]
      · by_cases hlt : i < k
        · have h1 : i < k + 1 := by omega
          simp [ih, hik, hlt, h1]
        · have h1 : ¬ i < k + 1 := by omega
          simp [ih, hik, hlt, h1]
    · simp [ih, hj]

/-- The finalization loop, pointwise: every option index below `k` of
the finalized election keeps its plaintext value (an uninitialized slot
becomes zero) and turns publicly decryptable; every other slot is
untouched. -/
theorem finalizeLoop_apply (t : Nat → Nat → Option Enc) (electionId k : Nat) :
    ∀ j i, finalizeLoop t electionId k j i =
      if j = electionId ∧ i < k then
        some { val := encVal (t electionId i), pub := true }
      else t j i := by
  induction k with
  | zero => intro j i; simp [finalizeLoop]
  | succ k ih =>
    intro j i
    have hk : finalizeLoop t electionId k electionId k = t electionId k := by
      rw [ih]; simp
    simp only [finalizeLoop, hk]
    by_cases hj : j = electionId
    · subst hj
      by_cases hik : i = k
      · subst hik
        simp [Nat.lt_succ_self]
      · by_cases hlt : i < k
        · have h1 : i < k + 1 := by omega
          simp [ih, hik, hlt, h1]
        · have h1 : ¬ i < k + 1 := by omega
          simp [ih, hik, hlt, h1]
    · simp [ih, hj]

/-! ## Normal forms of the mutating entry points -/

/-- The state produced by a successful `vote`. -/
def voteResult (s : State) (sender electionId choice : Nat) : State :=
  { s with
    tallies := voteLoop s.tallies electionId choice (s.elections electionId).options.length
    hasVoted := fun j a => if j = electionId ∧ a = sender then true else s.hasVoted j a }

/-- `vote` as a chain of guards in source order. -/
theorem vote_eq (s : State) (sender now electionId choice : Nat) :
    vote s sender now electionId choice =
      if (s.elections electionId).name = "" then .error .ElectionNotFound
      else if (s.elections electionId).endTime ≤ now then .error .ElectionClosed
      else if (s.elections electionId).finalized then .error .ElectionAlreadyFinalized
      else if s.hasVoted electionId sender then .error .AlreadyVoted
      else .ok (voteResult s sender electionId choice) := by
  by_cases h : (s.elections electionId).name = "" <;>
    simp [vote, requireElection, voteResult, h]

/-- The state produced by a successful `finalizeElection`. -/
def finalizeResult (s : State) (electionId : Nat) : State :=
  { s with
    tallies := finalizeLoop s.tallies electionId (s.elections electionId).options.length
    elections := fun j =>
      if j = electionId then { s.elections electionId with finalized := true }
      else s.elections j }

/-- `finalizeElection` as a chain of guards in source order. -/
theorem finalize_eq (s : State) (sender now electionId : Nat) :
    finalizeElection s sender now electionId =
      if (s.elections electionId).name = "" then .error .ElectionNotFound
      else if now < (s.elections electionId).endTime then .error .ElectionOngoing
      else if (s.elections electionId).finalized then .error .ElectionAlreadyFinalized
      else .ok (finalizeResult s electionId) := by
  by_cases h : (s.elections electionId).name = "" <;>
    simp [finalizeElection, requireElection, finalizeResult, h]

/-- The state produced by a successful `createElection`. -/
def createResult (s : State) (sender : Nat) (name : String)
    (options : List String) (endTime : Nat) : State :=
  { s with
    nextElectionId := s.nextElectionId + 1
    elections := fun j =>
      if j = s.nextElectionId then
        { name := name, endTime := endTime, finalized := false,
          creator := sender, options := options }
      else s.elections j }

/-- `createElection` success characterization. -/
theorem createElection_ok_iff (s : State) (sender now : Nat) (name : String)
    (options : List String) (endTime : Nat) (electionId : Nat) (s' : State) :
    createElection s sender now name options endTime = .ok (electionId, s') ↔
      (name ≠ "" ∧ now < endTime ∧
       MIN_OPTIONS ≤ options.length ∧ options.length ≤ MAX_OPTIONS ∧
       (∀ o ∈ options, o ≠ "") ∧
       electionId = s.nextElectionId ∧ s' = createResult s sender name options endTime) := by
  unfold createElection
  split_ifs with h1 h2 h3 h4
  · simp [h1]
  · refine iff_of_false (by simp) ?_
    rintro ⟨-, hlt, -, -, -, -, -⟩
    omega
  · refine iff_of_false (by simp) ?_
    rintro ⟨-, -, hmin, hmax, -, -, -⟩
    omega
  · refine iff_of_false (by simp) ?_
    rintro ⟨-, -, -, -, hall, -, -⟩
    simp only [List.any_eq_true, decide_eq_true_eq] at h4
    obtain ⟨o, ho, hoe⟩ := h4
    exact hall o ho hoe
  · push_neg at h2 h3
    simp only [List.any_eq_true, decide_eq_true_eq] at h4
    push_neg at h4
    simp only [Except.ok.injEq, Prod.mk.injEq]
    constructor
    · rintro ⟨hid, hs⟩
      exact ⟨h1, h2, h3.1, h3.2, h4, hid.symm, hs.symm⟩
    · rintro ⟨-, -, -, -, -, hid, hs⟩
      exact ⟨hid.symm, hs.symm⟩

/-- `vote` success characterization. -/
theorem vote_ok_iff (s : State) (sender now electionId choice : Nat) (s' : State) :
    vote s sender now electionId choice = .ok s' ↔
      ((s.elections electionId).name ≠ "" ∧ now < (s.elections electionId).endTime ∧
       (s.elections electionId).finalized = false ∧
       s.hasVoted electionId sender = false ∧
       s' = voteResult s sender electionId choice) := by
  rw [vote_eq]
  split_ifs with h1 h2 h3 h4
  · refine iff_of_false (by simp) ?_
    rintro ⟨hn, -⟩; exact hn h1
  · refine iff_of_false (by simp) ?_
    rintro ⟨-, hlt, -⟩; omega
  · refine iff_of_false (by simp) ?_
    rintro ⟨-, -, hf, -⟩; simp [hf] at h3
  · refine iff_of_false (by simp) ?_
    rintro ⟨-, -, -, hv, -⟩; simp [hv] at h4
  · simp only [Except.ok.injEq]
    constructor
    · intro hs
      exact ⟨h1, by omega, by simpa using h3, by simpa using h4, hs.symm⟩
    · rintro ⟨-, -, -, -, hs⟩
      exact hs.symm

/-- `finalizeElection` success characterization. -/
theorem finalize_ok_iff (s : State) (sender now electionId : Nat) (s' : State) :
    finalizeElection s sender now electionId = .ok s' ↔
      ((s.elections electionId).name ≠ "" ∧
       (s.elections electionId).endTime ≤ now ∧
       (s.elections electionId).finalized = false ∧
       s' = finalizeResult s electionId) := by
  rw [finalize_eq]
  split_ifs with h1 h2 h3
  · refine iff_of_false (by simp) ?_
    rintro ⟨hn, -⟩; exact hn h1
  · refine iff_of_false (by simp) ?_
    rintro ⟨-, hle, -⟩; omega
  · refine iff_of_false (by simp) ?_
    rintro ⟨-, -, hf, -⟩; simp [hf] at h3
  · simp only [Except.ok.injEq]
    constructor
    · intro hs
      exact ⟨h1, by omega, by simpa using h3, hs.symm⟩
    · rintro ⟨-, -, -, hs⟩
      exact hs.symm

/-! ## Field access of the result states -/

theorem voteResult_elections (s : State) (sender electionId choice : Nat) :
    (voteResult s sender electionId choice).elections = s.elections := rfl

theorem voteResult_nextElectionId (s : State) (sender electionId choice : Nat) :
    (voteResult s sender electionId choice).nextElectionId = s.nextElectionId := rfl

theorem voteResult_tallies (s : State) (sender electionId choice j i : Nat) :
    (voteResult s sender electionId choice).tallies j i =
      if j = electionId ∧ i < (s.elections electionId).options.length then
        some { val := (tallyVal s electionId i + (if choice = i then 1 else 0)) % U32,
               pub := false }
      else s.tallies j i :=
  voteLoop_apply s.tallies electionId choice
    (s.elections electionId).options.length j i

theorem voteResult_hasVoted (s : State) (sender electionId choice j a : Nat) :
    (voteResult s sender electionId choice).hasVoted j a =
      if j = electionId ∧ a = sender then true else s.hasVoted j a := rfl

theorem finalizeResult_elections (s : State) (electionId j : Nat) :
    (finalizeResult s electionId).elections j =
      if j = electionId then { s.elections electionId with finalized := true }
      else s.elections j := rfl

theorem finalizeResult_nextElectionId (s : State) (electionId : Nat) :
    (finalizeResult s electionId).nextElectionId = s.nextElectionId := rfl

theorem finalizeResult_tallies (s : State) (electionId j i : Nat) :
    (finalizeResult s electionId).tallies j i =
      if j = electionId ∧ i < (s.elections electionId).options.length then
        some { val := tallyVal s electionId i, pub := true }
      else s.tallies j i :=
  finalizeLoop_apply s.tallies electionId
    (s.elections electionId).options.length j i

theorem finalizeResult_hasVoted (s : State) (electionId j a : Nat) :
    (finalizeResult s electionId).hasVoted j a = s.hasVoted j a := rfl

theorem createResult_elections (s : State) (sender : Nat) (name : String)
    (options : List String) (endTime j : Nat) :
    (createResult s sender name options endTime).elections j =
      if j = s.nextElectionId then
        { name := name, endTime := endTime, finalized := false,
          creator := sender, options := options }
      else s.elections j := rfl

theorem createResult_nextElectionId (s : State) (sender : Nat) (name : String)
    (options : List String) (endTime : Nat) :
    (createResult s sender name options endTime).nextElectionId =
      s.nextElectionId + 1 := rfl

theorem createResult_tallies (s : State) (sender : Nat) (name : String)
    (options : List String) (endTime : Nat) :
    (createResult s sender name options endTime).tallies = s.tallies := rfl

theorem createResult_hasVoted (s : State) (sender : Nat) (name : String)
    (options : List String) (endTime : Nat) :
    (createResult s sender name options endTime).hasVoted = s.hasVoted := rfl

/-! ## Invariant of reachable states -/

/-- Invariant satisfied by every reachable storage state at latest call
time `t`: identifiers at or above the counter hold only default values;
every allocated election has a non-empty name; a finalized election's
closing time has passed; and a tally slot of a valid option index is
publicly decryptable exactly when its election is finalized. -/
def Inv (s : State) (t : Nat) : Prop :=
  (∀ id, s.nextElectionId ≤ id →
    s.elections id = emptyElection ∧ (∀ i, s.tallies id i = none) ∧
    (∀ a, s.hasVoted id a = false)) ∧
  (∀ id, id < s.nextElectionId → (s.elections id).name ≠ "") ∧
  (∀ id, (s.elections id).finalized = true → (s.elections id).endTime ≤ t) ∧
  (∀ id i, i < (s.elections id).options.length →
    encPub (s.tallies id i) = (s.elections id).finalized)

theorem inv_init (t : Nat) : Inv initState t := by
  refine ⟨fun id _ => ⟨rfl, fun i => rfl, fun a => rfl⟩, ?_, ?_, ?_⟩
  · intro id h
    exact absurd h (Nat.not_lt_zero id)
  · intro id h
    simp [initState, emptyElection] at h
  · intro id i h
    simp [initState, emptyElection] at h

/-- An allocated election (non-empty name) has an identifier below the
counter. -/
theorem allocated_lt_next {s : State} {t : Nat} (hs : Inv s t) {electionId : Nat}
    (hn : (s.elections electionId).name ≠ "") :
    electionId < s.nextElectionId := by
  by_contra hge
  push_neg at hge
  exact hn (by rw [(hs.1 electionId hge).1]; rfl)

theorem inv_step {s : State} {t : Nat} {s' : State} {t' : Nat}
    (hs : Inv s t) (hstep : Step s t s' t') : Inv s' t' := by
  obtain ⟨hFresh, hName, hFin, hPub⟩ := hs
  cases hstep
  case tick hle =>
    exact ⟨hFresh, hName, fun id hf => le_trans (hFin id hf) hle, hPub⟩
  case create sender name options endTime electionId hle hok =>
    obtain ⟨hn, hlt, -, -, -, hid, hs'⟩ :=
      (createElection_ok_iff s sender t' name options endTime electionId s').mp hok
    subst hs'
    refine ⟨?_, ?_, ?_, ?_⟩
    · intro id hge
      rw [createResult_nextElectionId] at hge
      rw [createResult_tallies, createResult_hasVoted, createResult_elections,
        if_neg (by omega)]
      exact hFresh id (by omega)
    · intro id hlt2
      rw [createResult_nextElectionId] at hlt2
      rw [createResult_elections]
      by_cases hcase : id = s.nextElectionId
      · rw [if_pos hcase]
        exact hn
      · rw [if_neg hcase]
        exact hName id (by omega)
    · intro id hf
      rw [createResult_elections] at hf ⊢
      by_cases hcase : id = s.nextElectionId
      · rw [if_pos hcase] at hf
        simp at hf
      · rw [if_neg hcase] at hf ⊢
        exact le_trans (hFin id hf) hle
    · intro id i hlen
      rw [createResult_elections] at hlen ⊢
      rw [createResult_tallies]
      by_cases hcase : id = s.nextElectionId
      · rw [if_pos hcase]
        rw [hcase, (hFresh s.nextElectionId le_rfl).2.1 i]
        rfl
      · rw [if_neg hcase] at hlen ⊢
        exact hPub id i hlen
  case voteStep sender electionId choice hle hok =>
    obtain ⟨hn, hlt, hf, hv, hs'⟩ :=
      (vote_ok_iff s sender t' electionId choice s').mp hok
    subst hs'
    have hidlt : electionId < s.nextElectionId :=
      allocated_lt_next ⟨hFresh, hName, hFin, hPub⟩ hn
    refine ⟨?_, ?_, ?_, ?_⟩
    · intro id hge
      rw [voteResult_nextElectionId] at hge
      rw [voteResult_elections]
      refine ⟨(hFresh id hge).1, ?_, ?_⟩
      · intro i
        rw [voteResult_tallies, if_neg (by omega)]
        exact (hFresh id hge).2.1 i
      · intro a
        rw [voteResult_hasVoted, if_neg (by omega)]
        exact (hFresh id hge).2.2 a
    · intro id hlt2
      rw [voteResult_nextElectionId] at hlt2
      rw [voteResult_elections]
      exact hName id hlt2
    · intro id hfin
      rw [voteResult_elections] at hfin ⊢
      exact le_trans (hFin id hfin) hle
    · intro id i hlen
      rw [voteResult_elections] at hlen ⊢
      rw [voteResult_tallies]
      by_cases hcase : id = electionId ∧ i < (s.elections electionId).options.length
      · rw [if_pos hcase, hcase.1, hf]
        rfl
      · rw [if_neg hcase]
        exact hPub id i hlen
  case finalizeStep sender electionId hle hok =>
    obtain ⟨hn, hle2, hf, hs'⟩ :=
      (finalize_ok_iff s sender t' electionId s').mp hok
    subst hs'
    have hidlt : electionId < s.nextElectionId :=
      allocated_lt_next ⟨hFresh, hName, hFin, hPub⟩ hn
    refine ⟨?_, ?_, ?_, ?_⟩
    · intro id hge
      rw [finalizeResult_nextElectionId] at hge
      rw [finalizeResult_elections, if_neg (by omega)]
      refine ⟨(hFresh id hge).1, ?_, ?_⟩
      · intro i
        rw [finalizeResult_tallies, if_neg (by omega)]
        exact (hFresh id hge).2.1 i
      · intro a
        rw [finalizeResult_hasVoted]
        exact (hFresh id hge).2.2 a
    · intro id hlt2
      rw [finalizeResult_nextElectionId] at hlt2
      rw [finalizeResult_elections]
      by_cases hcase : id = electionId
      · rw [if_pos hcase]
        exact hn
      · rw [if_neg hcase]
        exact hName id hlt2
    · intro id hfin
      rw [finalizeResult_elections] at hfin ⊢
      by_cases hcase : id = electionId
      · rw [if_pos hcase]
        exact hle2
      · rw [if_neg hcase] at hfin ⊢
        exact le_trans (hFin id hfin) hle
    · intro id i hlen
      rw [finalizeResult_elections] at hlen ⊢
      rw [finalizeResult_tallies]
      by_cases hcase : id = electionId
      · rw [if_pos hcase] at hlen ⊢
        rw [if_pos ⟨hcase, by simpa using hlen⟩]
        rfl
      · rw [if_neg hcase] at hlen ⊢
        rw [if_neg (fun hco => hcase hco.1)]
        exact hPub id i hlen

/-- Every reachable state satisfies the invariant. -/
theorem reachable_inv {s : State} {t : Nat} (h : Reachable s t) : Inv s t := by
  induction h with
  | init t => exact inv_init t
  | step hr hstep ih => exact inv_step ih hstep

/-! ## Sequences of vote calls -/

/-- Runs a list of `vote` calls `(sender, timestamp, choice)` in order on
one election; stops at the first revert. -/
def runVotes (electionId : Nat) : State → List (Nat × Nat × Nat) → Except Err State
  | s, [] => .ok s
  | s, v :: rest =>
    match vote s v.1 v.2.1 electionId v.2.2 with
    | .error e => .error e
    | .ok s' => runVotes electionId s' rest

/-- Number of votes in the list whose plaintext choice is `i`. -/
def countChoice (votes : List (Nat × Nat × Nat)) (i : Nat) : Nat :=
  (votes.filter fun v => v.2.2 = i).length

theorem countChoice_cons (v : Nat × Nat × Nat) (rest : List (Nat × Nat × Nat)) (i : Nat) :
    countChoice (v :: rest) i = (if v.2.2 = i then 1 else 0) + countChoice rest i := by
  by_cases h : v.2.2 = i <;> simp [countChoice, List.filter_cons, h] <;> omega

theorem countChoice_le_length (votes : List (Nat × Nat × Nat)) (i : Nat) :
    countChoice votes i ≤ votes.length :=
  List.length_filter_le _ _

/-- Summing the per-option counts over the first `k` options counts
exactly the votes whose choice lies below `k`. -/
theorem sum_countChoice (k : Nat) (votes : List (Nat × Nat × Nat)) :
    (Finset.range k).sum (fun i => countChoice votes i) =
      (votes.filter fun v => v.2.2 < k).length := by
  induction votes with
  | nil => simp [countChoice]
  | cons v rest ih =>
    simp only [countChoice_cons, Finset.sum_add_distrib, ih, List.filter_cons]
    rw [Finset.sum_ite_eq]
    by_cases h : v.2.2 < k <;>
      simp [h, Finset.mem_range] <;> omega

/-- Effect of one successful `vote` on the tally values. -/
theorem vote_ok_tallyVal {s : State} {sender now electionId choice : Nat} {s' : State}
    (hok : vote s sender now electionId choice = .ok s') :
    s'.elections = s.elections ∧ s'.nextElectionId = s.nextElectionId ∧
    (∀ i, i < (s.elections electionId).options.length →
      tallyVal s' electionId i =
        (tallyVal s electionId i + (if choice = i then 1 else 0)) % U32) ∧
    (∀ j i, ¬(j = electionId ∧ i < (s.elections electionId).options.length) →
      s'.tallies j i = s.tallies j i) := by
  obtain ⟨-, -, -, -, hs'⟩ :=
    (vote_ok_iff s sender now electionId choice s').mp hok
  subst hs'
  refine ⟨voteResult_elections s sender electionId choice,
    voteResult_nextElectionId s sender electionId choice, ?_, ?_⟩
  · intro i hi
    unfold tallyVal
    rw [voteResult_tallies, if_pos ⟨rfl, hi⟩]
    rfl
  · intro j i hni
    rw [voteResult_tallies, if_neg hni]

/-- Running a sequence of accepted votes adds, to every valid option's
tally value, the number of votes in the sequence choosing it, as long as
no accumulator reaches the `euint32` wrap-around. -/
theorem runVotes_tally (electionId : Nat) (votes : List (Nat × Nat × Nat)) :
    ∀ (s s' : State),
      runVotes electionId s votes = .ok s' →
      (∀ i, tallyVal s electionId i + countChoice votes i < U32) →
      s'.elections = s.elections ∧
      (∀ i, i < (s.elections electionId).options.length →
        tallyVal s' electionId i = tallyVal s electionId i + countChoice votes i) ∧
      (∀ i, ¬ i < (s.elections electionId).options.length →
        tallyVal s' electionId i = tallyVal s electionId i) := by
  induction votes with
  | nil =>
    intro s s' hrun hbound
    simp only [runVotes] at hrun
    cases hrun
    exact ⟨rfl, fun i _ => by simp [countChoice], fun i _ => rfl⟩
  | cons v rest ih =>
    intro s s' hrun hbound
    simp only [runVotes] at hrun
    cases hv : vote s v.1 v.2.1 electionId v.2.2 with
    | error e =>
      rw [hv] at hrun
      simp at hrun
    | ok s1 =>
      rw [hv] at hrun
      have hrun1 : runVotes electionId s1 rest = .ok s' := hrun
      obtain ⟨hel, -, hupd, hfr⟩ := vote_ok_tallyVal hv
      have hcnt : ∀ i, countChoice rest i ≤ countChoice (v :: rest) i := by
        intro i
        rw [countChoice_cons]
        split <;> omega
      have hs1 : ∀ i, i < (s.elections electionId).options.length →
          tallyVal s1 electionId i =
            tallyVal s electionId i + (if v.2.2 = i then 1 else 0) := by
        intro i hi
        have hb := hbound i
        rw [countChoice_cons] at hb
        rw [hupd i hi, Nat.mod_eq_of_lt (by omega)]
      have hs1' : ∀ i, ¬ i < (s.elections electionId).options.length →
          tallyVal s1 electionId i = tallyVal s electionId i := by
        intro i hi
        unfold tallyVal
        rw [hfr electionId i (fun hc => hi hc.2)]
      have hbound1 : ∀ i, tallyVal s1 electionId i + countChoice rest i < U32 := by
        intro i
        by_cases hi : i < (s.elections electionId).options.length
        · have hb := hbound i
          rw [countChoice_cons] at hb
          rw [hs1 i hi]
          omega
        · rw [hs1' i hi]
          have := hbound i
          have := hcnt i
          omega
      obtain ⟨hel', hupd', hfr'⟩ := ih s1 s' hrun1 hbound1
      rw [hel] at hel' hupd' hfr'
      refine ⟨hel', ?_, ?_⟩
      · intro i hi
        rw [hupd' i hi, hs1 i hi, countChoice_cons]
        omega
      · intro i hi
        rw [hfr' i hi, hs1' i hi]

/-! ## A concrete execution (used to instantiate the general theorems) -/

/-- State after `createElection("E", ["A","B"], endTime 1)` sent by
address 3 at time 0 on a fresh contract. -/
def w1 : State :=
  match createElection initState 3 0 "E" ["A", "B"] 1 with
  | .ok p => p.2
  | .error _ => initState

theorem w1_created : createElection initState 3 0 "E" ["A", "B"] 1 = .ok (0, w1) := rfl

theorem w1_reachable : Reachable w1 0 :=
  Reachable.step (Reachable.init 0)
    (Step.create initState 0 0 3 "E" ["A", "B"] 1 0 w1 (le_refl 0) w1_created)

/-- State after address 7 voted for option 1 in election 0 of `w1`. -/
def wVote : State :=
  match vote w1 7 0 0 1 with
  | .ok s => s
  | .error _ => initState

/-- State after address 9 voted with out-of-range choice 5 in election 0
of `w1`. -/
def wVote5 : State :=
  match vote w1 9 0 0 5 with
  | .ok s => s
  | .error _ => initState

/-- State after finalizing election 0 of `wVote` at time 1. -/
def wFinal : State :=
  match finalizeElection wVote 2 1 0 with
  | .ok s => s
  | .error _ => initState

/-! ## Claims -/

/-- C3: `vote` checks its preconditions in this exact order — election
existence (`ElectionNotFound`), current time strictly before closing
time (`ElectionClosed`), not finalized (`ElectionAlreadyFinalized`),
caller has no ballot record (`AlreadyVoted`) — and succeeds exactly when
all four checks pass.  A revert leaves all storage unchanged (EVM
rollback), which the `Except`-error embedding reflects. -/
theorem c3_vote_check_order (s : State) (sender now electionId choice : Nat) :
    (vote s sender now electionId choice = .error .ElectionNotFound ↔
      (s.elections electionId).name = "") ∧
    (vote s sender now electionId choice = .error .ElectionClosed ↔
      ((s.elections electionId).name ≠ "" ∧ (s.elections electionId).endTime ≤ now)) ∧
    (vote s sender now electionId choice = .error .ElectionAlreadyFinalized ↔
      ((s.elections electionId).name ≠ "" ∧ now < (s.elections electionId).endTime ∧
        (s.elections electionId).finalized = true)) ∧
    (vote s sender now electionId choice = .error .AlreadyVoted ↔
      ((s.elections electionId).name ≠ "" ∧ now < (s.elections electionId).endTime ∧
        (s.elections electionId).finalized = false ∧
        s.hasVoted electionId sender = true)) ∧
    ((∃ s', vote s sender now electionId choice = .ok s') ↔
      ((s.elections electionId).name ≠ "" ∧ now < (s.elections electionId).endTime ∧
        (s.elections electionId).finalized = false ∧
        s.hasVoted electionId sender = false)) := by
  rw [vote_eq]
  split_ifs with h1 h2 h3 h4
  · refine ⟨iff_of_true rfl h1, iff_of_false (by simp) ?_, iff_of_false (by simp) ?_,
      iff_of_false (by simp) ?_, iff_of_false (by simp) ?_⟩ <;>
      · rintro ⟨hn, -⟩
        exact hn h1
  · refine ⟨iff_of_false (by simp) h1, iff_of_true rfl ⟨h1, h2⟩,
      iff_of_false (by simp) ?_, iff_of_false (by simp) ?_, iff_of_false (by simp) ?_⟩ <;>
      · rintro ⟨-, hlt, -⟩
        omega
  · refine ⟨iff_of_false (by simp) h1, iff_of_false (by simp) ?_,
      iff_of_true rfl ⟨h1, by omega, h3⟩, iff_of_false (by simp) ?_,
      iff_of_false (by simp) ?_⟩
    · rintro ⟨-, hle⟩
      omega
    · rintro ⟨-, -, hf, -⟩
      simp [h3] at hf
    · rintro ⟨-, -, hf, -⟩
      simp [h3] at hf
  · refine ⟨iff_of_false (by simp) h1, iff_of_false (by simp) ?_,
      iff_of_false (by simp) ?_, iff_of_true rfl ⟨h1, by omega, by simpa using h3, h4⟩,
      iff_of_false (by simp) ?_⟩
    · rintro ⟨-, hle⟩
      omega
    · rintro ⟨-, -, hf⟩
      exact h3 hf
    · rintro ⟨-, -, -, hv⟩
      simp [h4] at hv
  · refine ⟨iff_of_false (by simp) h1, iff_of_false (by simp) ?_,
      iff_of_false (by simp) ?_, iff_of_false (by simp) ?_,
      iff_of_true ⟨_, rfl⟩ ⟨h1, by omega, by simpa using h3, by simpa using h4⟩⟩
    · rintro ⟨-, hle⟩
      omega
    · rintro ⟨-, -, hf⟩
      exact h3 hf
    · rintro ⟨-, -, -, hv⟩
      exact h4 hv

/-- Witness for C3 at a concrete input: on a fresh contract a vote for
election 0 reports `ElectionNotFound`. -/
theorem c3_witness : vote initState 0 0 0 0 = .error .ElectionNotFound :=
  (c3_vote_check_order initState 0 0 0 0).1.mpr rfl

/-- C2: a successful vote with plaintext choice `c` rewrites every
option accumulator `i < k` with a fresh non-public ciphertext holding
`old + select(eq(c,i),1,0)` (mod `2^32`); in plaintext terms, below the
`euint32` wrap-around the accumulator of option `c` (when `c < k`)
increases by exactly 1 and every other option keeps its value. -/
theorem c2_vote_accumulators (s : State) (sender now electionId choice : Nat)
    (s' : State) (hok : vote s sender now electionId choice = .ok s')
    (hval : ∀ i, tallyVal s electionId i + 1 < U32) :
    (∀ i, i < (s.elections electionId).options.length →
      s'.tallies electionId i =
        some { val := (tallyVal s electionId i + (if choice = i then 1 else 0)) % U32,
               pub := false }) ∧
    (choice < (s.elections electionId).options.length →
      tallyVal s' electionId choice = tallyVal s electionId choice + 1) ∧
    (∀ i, i < (s.elections electionId).options.length → i ≠ choice →
      tallyVal s' electionId i = tallyVal s electionId i) := by
  obtain ⟨-, -, -, -, hs'⟩ :=
    (vote_ok_iff s sender now electionId choice s').mp hok
  subst hs'
  refine ⟨?_, ?_, ?_⟩
  · intro i hi
    rw [voteResult_tallies, if_pos ⟨rfl, hi⟩]
  · intro hc
    unfold tallyVal
    rw [voteResult_tallies, if_pos ⟨rfl, hc⟩]
    have hb := hval choice
    show (encVal (s.tallies electionId choice) + (if choice = choice then 1 else 0)) % U32 =
      encVal (s.tallies electionId choice) + 1
    rw [if_pos rfl]
    exact Nat.mod_eq_of_lt hb
  · intro i hi hne
    unfold tallyVal
    rw [voteResult_tallies, if_pos ⟨rfl, hi⟩]
    have hne' : choice ≠ i := fun h => hne h.symm
    have hb := hval i
    show (encVal (s.tallies electionId i) + (if choice = i then 1 else 0)) % U32 =
      encVal (s.tallies electionId i)
    rw [if_neg hne', Nat.add_zero]
    exact Nat.mod_eq_of_lt (show tallyVal s electionId i < U32 by omega)

/-- Witness for C2: in the concrete run, address 7's vote for option 1
sets option 1's accumulator to 1 and leaves option 0's at 0. -/
theorem c2_witness :
    wVote.tallies 0 1 = some { val := 1, pub := false } ∧
      tallyVal wVote 0 0 = 0 := by
  have h := c2_vote_accumulators w1 7 0 0 1 wVote rfl
    (fun i => by
      have hz : tallyVal w1 0 i = 0 := rfl
      rw [hz]
      decide)
  refine ⟨?_, ?_⟩
  · have h1 := h.1 1 (by decide)
    exact h1
  · have h0 := h.2.2 0 (by decide) (by decide)
    exact h0

/-- C9: a vote whose plaintext choice is at or above the option count
passes all checks and is accepted — the ballot record is created — yet
every accumulator receives encrypted zero, so no tally changes. -/
theorem c9_out_of_range_vote (s : State) (sender now electionId choice : Nat)
    (hname : (s.elections electionId).name ≠ "")
    (hopen : now < (s.elections electionId).endTime)
    (hfin : (s.elections electionId).finalized = false)
    (hnv : s.hasVoted electionId sender = false)
    (hc : (s.elections electionId).options.length ≤ choice)
    (hval : ∀ i, tallyVal s electionId i < U32) :
    ∃ s', vote s sender now electionId choice = .ok s' ∧
      s'.hasVoted electionId sender = true ∧
      (∀ i, i < (s.elections electionId).options.length →
        s'.tallies electionId i =
          some { val := tallyVal s electionId i, pub := false }) ∧
      (∀ i, tallyVal s' electionId i = tallyVal s electionId i) := by
  refine ⟨voteResult s sender electionId choice, ?_, ?_, ?_, ?_⟩
  · rw [vote_ok_iff]
    exact ⟨hname, hopen, hfin, hnv, rfl⟩
  · rw [voteResult_hasVoted, if_pos ⟨rfl, rfl⟩]
  · intro i hi
    rw [voteResult_tallies, if_pos ⟨rfl, hi⟩]
    have hne : choice ≠ i := by omega
    simp [hne, Nat.mod_eq_of_lt (hval i)]
  · intro i
    by_cases hi : i < (s.elections electionId).options.length
    · unfold tallyVal
      rw [voteResult_tallies, if_pos ⟨rfl, hi⟩]
      have hne : choice ≠ i := by omega
      show (encVal (s.tallies electionId i) + (if choice = i then 1 else 0)) % U32 =
        encVal (s.tallies electionId i)
      rw [if_neg hne, Nat.add_zero]
      exact Nat.mod_eq_of_lt (hval i)
    · unfold tallyVal
      rw [voteResult_tallies, if_neg (fun hco => hi hco.2)]

/-- Witness for C9: address 9 votes with choice 5 on the two-option
election of `w1`; the vote is accepted, the ballot is recorded, and both
tallies stay 0. -/
theorem c9_witness :
    vote w1 9 0 0 5 = .ok wVote5 ∧ wVote5.hasVoted 0 9 = true ∧
      tallyVal wVote5 0 0 = 0 ∧ tallyVal wVote5 0 1 = 0 := by
  obtain ⟨s', h1, h2, -, h4⟩ :=
    c9_out_of_range_vote w1 9 0 0 5 (by decide) (by decide) rfl rfl (by decide)
      (fun i => by
        have hz : tallyVal w1 0 i = 0 := rfl
        rw [hz]
        decide)
  have h5 : vote w1 9 0 0 5 = .ok wVote5 := rfl
  rw [h1] at h5
  injection h5 with he
  subst he
  exact ⟨h1, h2, (h4 0).trans rfl, (h4 1).trans rfl⟩

/-- C4 counterexample: with an empty name and a single option label, the
option count is outside [2,8] yet `createElection` reports the
empty-name error, not `InvalidOptionCount` — the name check runs first. -/
theorem c4_counterexample :
    (["x"] : List String).length < MIN_OPTIONS ∧
    createElection initState 3 5 "" ["x"] 10 = .error .EmptyOption ∧
    createElection initState 3 5 "" ["x"] 10 ≠ .error .InvalidOptionCount := by
  refine ⟨by decide, rfl, ?_⟩
  intro h
  rw [show createElection initState 3 5 "" ["x"] 10 = Except.error Err.EmptyOption from rfl] at h
  injection h with h
  exact Err.noConfusion h

/-- C4 (amended): `createElection` validates in source order — empty
name (`EmptyOption`, the spec's `EmptyLabel`), closing time not strictly
in the future (`InvalidEndTime`), option count outside [2,8]
(`InvalidOptionCount`), empty option label (`EmptyOption`) — each error
firing only when the earlier checks pass; on success it stores the
metadata under the fresh identifier `_nextElectionId` and returns it.  A
revert rolls every write back, so no identifier is consumed on failure. -/
theorem c4_amended_create_order (s : State) (sender now : Nat) (name : String)
    (options : List String) (endTime : Nat) :
    (createElection s sender now name options endTime = .error .EmptyOption ↔
      (name = "" ∨ (name ≠ "" ∧ now < endTime ∧
        MIN_OPTIONS ≤ options.length ∧ options.length ≤ MAX_OPTIONS ∧
        ∃ o ∈ options, o = ""))) ∧
    (createElection s sender now name options endTime = .error .InvalidEndTime ↔
      (name ≠ "" ∧ endTime ≤ now)) ∧
    (createElection s sender now name options endTime = .error .InvalidOptionCount ↔
      (name ≠ "" ∧ now < endTime ∧
        (options.length < MIN_OPTIONS ∨ MAX_OPTIONS < options.length))) ∧
    (createElection s sender now name options endTime =
        .ok (s.nextElectionId, createResult s sender name options endTime) ↔
      (name ≠ "" ∧ now < endTime ∧ MIN_OPTIONS ≤ options.length ∧
        options.length ≤ MAX_OPTIONS ∧ ∀ o ∈ options, o ≠ "")) := by
  unfold createElection
  split_ifs with h1 h2 h3 h4
  · refine ⟨iff_of_true rfl (Or.inl h1), iff_of_false (by simp) ?_,
      iff_of_false (by simp) ?_, iff_of_false (by simp) ?_⟩ <;>
      · rintro ⟨hn, -⟩
        exact hn h1
  · refine ⟨iff_of_false ?_ ?_, iff_of_true rfl ⟨h1, h2⟩,
      iff_of_false (by simp) ?_, iff_of_false (by simp) ?_⟩
    · simp
    · rintro (h | ⟨-, hlt, -⟩)
      · exact h1 h
      · omega
    · rintro ⟨-, hlt, -⟩
      omega
    · rintro ⟨-, hlt, -⟩
      omega
  · refine ⟨iff_of_false (by simp) ?_, iff_of_false (by simp) ?_,
      iff_of_true rfl ⟨h1, by omega, h3⟩, iff_of_false (by simp) ?_⟩
    · rintro (h | ⟨-, -, hmin, hmax, -⟩)
      · exact h1 h
      · omega
    · rintro ⟨-, hle⟩
      omega
    · rintro ⟨-, -, hmin, hmax, -⟩
      omega
  · simp only [List.any_eq_true, decide_eq_true_eq] at h4
    refine ⟨iff_of_true rfl (Or.inr ⟨h1, by omega, ?_, ?_, h4⟩),
      iff_of_false (by simp) ?_, iff_of_false (by simp) ?_, iff_of_false (by simp) ?_⟩
    · omega
    · omega
    · rintro ⟨-, hle⟩
      omega
    · rintro ⟨-, -, hco⟩
      omega
    · rintro ⟨-, -, -, -, hall⟩
      obtain ⟨o, ho, hoe⟩ := h4
      exact hall o ho hoe
  · simp only [List.any_eq_true, decide_eq_true_eq] at h4
    push_neg at h4
    refine ⟨iff_of_false (by simp) ?_, iff_of_false (by simp) ?_,
      iff_of_false (by simp) ?_, iff_of_true rfl ⟨h1, by omega, by omega, by omega, h4⟩⟩
    · rintro (h | ⟨-, -, -, -, o, ho, hoe⟩)
      · exact h1 h
      · exact h4 o ho hoe
    · rintro ⟨-, hle⟩
      omega
    · rintro ⟨-, -, hco⟩
      omega

/-- Witness for C4 (amended) at a concrete input: a valid creation on a
fresh contract succeeds and returns identifier 0. -/
theorem c4_witness :
    createElection initState 3 0 "E" ["A", "B"] 1 =
      .ok (0, createResult initState 3 "E" ["A", "B"] 1) :=
  (c4_amended_create_order initState 3 0 "E" ["A", "B"] 1).2.2.2.mpr
    ⟨by decide, by decide, by decide, by decide, by decide⟩

/-- C5: `finalizeElection` (callable by any sender) fails with
`ElectionNotFound` for a missing election, `ElectionOngoing` strictly
before the closing time and `ElectionAlreadyFinalized` when repeated; on
success every option accumulator — with a never-written accumulator
treated as encrypted zero — is marked publicly decryptable in the single
state transition that also sets the finalized flag. -/
theorem c5_finalize_effects (s : State) (sender now electionId : Nat) :
    (finalizeElection s sender now electionId = .error .ElectionNotFound ↔
      (s.elections electionId).name = "") ∧
    (finalizeElection s sender now electionId = .error .ElectionOngoing ↔
      ((s.elections electionId).name ≠ "" ∧ now < (s.elections electionId).endTime)) ∧
    (finalizeElection s sender now electionId = .error .ElectionAlreadyFinalized ↔
      ((s.elections electionId).name ≠ "" ∧ (s.elections electionId).endTime ≤ now ∧
        (s.elections electionId).finalized = true)) ∧
    ((s.elections electionId).name ≠ "" → (s.elections electionId).endTime ≤ now →
      (s.elections electionId).finalized = false →
      ∃ s', finalizeElection s sender now electionId = .ok s' ∧
        (∀ i, i < (s.elections electionId).options.length →
          s'.tallies electionId i =
            some { val := tallyVal s electionId i, pub := true }) ∧
        (∀ i, i < (s.elections electionId).options.length →
          s.tallies electionId i = none →
          s'.tallies electionId i = some { val := 0, pub := true }) ∧
        (s'.elections electionId).finalized = true) := by
  refine ⟨?_, ?_, ?_, ?_⟩
  · rw [finalize_eq]
    split_ifs with h1 h2 h3
    · exact iff_of_true rfl h1
    · exact iff_of_false (by simp) h1
    · exact iff_of_false (by simp) h1
    · exact iff_of_false (by simp) h1
  · rw [finalize_eq]
    split_ifs with h1 h2 h3
    · refine iff_of_false (by simp) ?_
      rintro ⟨hn, -⟩
      exact hn h1
    · exact iff_of_true rfl ⟨h1, h2⟩
    · refine iff_of_false (by simp) ?_
      rintro ⟨-, hlt⟩
      omega
    · refine iff_of_false (by simp) ?_
      rintro ⟨-, hlt⟩
      omega
  · rw [finalize_eq]
    split_ifs with h1 h2 h3
    · refine iff_of_false (by simp) ?_
      rintro ⟨hn, -⟩
      exact hn h1
    · refine iff_of_false (by simp) ?_
      rintro ⟨-, hle, -⟩
      omega
    · exact iff_of_true rfl ⟨h1, by omega, h3⟩
    · refine iff_of_false (by simp) ?_
      rintro ⟨-, -, hf⟩
      exact h3 hf
  · intro hn hle hf
    refine ⟨finalizeResult s electionId, ?_, ?_, ?_, ?_⟩
    · rw [finalize_ok_iff]
      exact ⟨hn, hle, hf, rfl⟩
    · intro i hi
      rw [finalizeResult_tallies, if_pos ⟨rfl, hi⟩]
    · intro i hi hnone
      rw [finalizeResult_tallies, if_pos ⟨rfl, hi⟩]
      unfold tallyVal
      rw [hnone]
      rfl
    · rw [finalizeResult_elections, if_pos rfl]

/-- Witness for C5: finalizing the concrete election at its closing time
makes option 1's accumulator publicly decryptable with value 1 and sets
the finalized flag. -/
theorem c5_witness :
    finalizeElection wVote 2 1 0 = .ok wFinal ∧
      wFinal.tallies 0 1 = some { val := 1, pub := true } ∧
      (wFinal.elections 0).finalized = true := by
  obtain ⟨s', h1, h2, -, h4⟩ :=
    (c5_finalize_effects wVote 2 1 0).2.2.2 (by decide) (by decide) rfl
  have h5 : finalizeElection wVote 2 1 0 = .ok wFinal := rfl
  rw [h1] at h5
  injection h5 with he
  subst he
  exact ⟨h1, (h2 1 (by decide)).trans (by rfl), h4⟩

/-- `isTallyPublic` on an existing election and a valid option index
returns the ACL flag of the stored accumulator. -/
theorem isTallyPublic_eq (s : State) (electionId i : Nat)
    (hname : (s.elections electionId).name ≠ "")
    (hi : i < (s.elections electionId).options.length) :
    isTallyPublic s electionId i = .ok (encPub (s.tallies electionId i)) := by
  simp [isTallyPublic, requireValidOption, requireElection, hname, Nat.not_le.mpr hi]

/-- C6: along every step from a reachable state the finalized flag never
falls back from true to false, and in every reachable state a valid
option's tally is publicly revealable exactly when the election is
finalized (`isTallyPublic` returns the finalized flag). -/
theorem c6_finalized_monotone_revealable :
    (∀ s t s' t', Reachable s t → Step s t s' t' →
      ∀ electionId, (s.elections electionId).finalized = true →
        (s'.elections electionId).finalized = true) ∧
    (∀ s t, Reachable s t → ∀ electionId i,
      i < (s.elections electionId).options.length →
      isTallyPublic s electionId i = .ok ((s.elections electionId).finalized)) := by
  constructor
  · intro s t s' t' hr hstep electionId hf
    have inv := reachable_inv hr
    cases hstep
    case tick hle => exact hf
    case create sender name options endTime eid hle hok =>
      obtain ⟨-, -, -, -, -, hid, hs'⟩ :=
        (createElection_ok_iff s sender t' name options endTime eid s').mp hok
      subst hs'
      rw [createResult_elections]
      by_cases hcase : electionId = s.nextElectionId
      · rw [hcase, (inv.1 s.nextElectionId le_rfl).1] at hf
        simp [emptyElection] at hf
      · rw [if_neg hcase]
        exact hf
    case voteStep sender eid choice hle hok =>
      obtain ⟨-, -, -, -, hs'⟩ := (vote_ok_iff s sender t' eid choice s').mp hok
      subst hs'
      rw [voteResult_elections]
      exact hf
    case finalizeStep sender eid hle hok =>
      obtain ⟨-, -, -, hs'⟩ := (finalize_ok_iff s sender t' eid s').mp hok
      subst hs'
      rw [finalizeResult_elections]
      by_cases hcase : electionId = eid
      · rw [if_pos hcase]
      · rw [if_neg hcase]
        exact hf
  · intro s t hr electionId i hi
    have inv := reachable_inv hr
    have hname : (s.elections electionId).name ≠ "" := by
      by_cases hc : s.nextElectionId ≤ electionId
      · exfalso
        rw [(inv.1 electionId hc).1] at hi
        simp [emptyElection] at hi
      · exact inv.2.1 electionId (by omega)
    rw [isTallyPublic_eq s electionId i hname hi, inv.2.2.2 electionId i hi]

/-- Witness for C6: in the concrete reachable state `w1` (before
finalization), option 0's tally of election 0 is not publicly
revealable. -/
theorem c6_witness : isTallyPublic w1 0 0 = .ok false := by
  have h := c6_finalized_monotone_revealable.2 w1 0 w1_reachable 0 0 (by decide)
  rw [show (w1.elections 0).finalized = false from rfl] at h
  exact h

/-- C7: with non-decreasing call times, every reachable state satisfies
"finalized implies the closing time has passed", so a `vote` call at or
after the latest call time can never hit the `ElectionAlreadyFinalized`
branch: once the closing-time check passes, the finalized check is
unreachable. -/
theorem c7_already_finalized_unreachable :
    (∀ s t, Reachable s t → ∀ electionId,
      (s.elections electionId).finalized = true →
      (s.elections electionId).endTime ≤ t) ∧
    (∀ s t, Reachable s t → ∀ sender now electionId choice, t ≤ now →
      vote s sender now electionId choice ≠ .error .ElectionAlreadyFinalized) := by
  constructor
  · intro s t hr electionId hf
    exact (reachable_inv hr).2.2.1 electionId hf
  · intro s t hr sender now electionId choice hle hcontra
    rw [vote_eq] at hcontra
    by_cases h1 : (s.elections electionId).name = ""
    · rw [if_pos h1] at hcontra
      simp at hcontra
    · rw [if_neg h1] at hcontra
      by_cases h2 : (s.elections electionId).endTime ≤ now
      · rw [if_pos h2] at hcontra
        simp at hcontra
      · rw [if_neg h2] at hcontra
        by_cases h3 : (s.elections electionId).finalized = true
        · have := (reachable_inv hr).2.2.1 electionId h3
          omega
        · rw [if_neg h3] at hcontra
          by_cases h4 : s.hasVoted electionId sender = true
          · rw [if_pos h4] at hcontra
            simp at hcontra
          · rw [if_neg h4] at hcontra
            simp at hcontra

/-- Witness for C7 at a concrete input: on the reachable state `w1` a
vote at time 0 cannot report `ElectionAlreadyFinalized`. -/
theorem c7_witness :
    vote w1 7 0 0 1 ≠ .error .ElectionAlreadyFinalized :=
  c7_already_finalized_unreachable.2 w1 0 w1_reachable 7 0 0 1 (le_refl 0)

/-- C8: `vote` changes no election record at all; `createElection`
leaves every previously allocated record unchanged; `finalizeElection`
changes nothing outside the finalized election and, there, only the
finalized flag — name, closing time, creator and options persist, so no
election is ever deleted. -/
theorem c8_metadata_immutable (s : State) :
    (∀ sender now electionId choice s',
      vote s sender now electionId choice = .ok s' →
      s'.elections = s.elections) ∧
    (∀ sender now name options endTime electionId s',
      createElection s sender now name options endTime = .ok (electionId, s') →
      ∀ j, j < s.nextElectionId → s'.elections j = s.elections j) ∧
    (∀ sender now electionId s',
      finalizeElection s sender now electionId = .ok s' →
      (∀ j, j ≠ electionId → s'.elections j = s.elections j) ∧
      (s'.elections electionId).name = (s.elections electionId).name ∧
      (s'.elections electionId).endTime = (s.elections electionId).endTime ∧
      (s'.elections electionId).creator = (s.elections electionId).creator ∧
      (s'.elections electionId).options = (s.elections electionId).options ∧
      (s'.elections electionId).finalized = true) := by
  refine ⟨?_, ?_, ?_⟩
  · intro sender now electionId choice s' hok
    obtain ⟨-, -, -, -, hs'⟩ := (vote_ok_iff s sender now electionId choice s').mp hok
    subst hs'
    exact voteResult_elections s sender electionId choice
  · intro sender now name options endTime electionId s' hok j hj
    obtain ⟨-, -, -, -, -, hid, hs'⟩ :=
      (createElection_ok_iff s sender now name options endTime electionId s').mp hok
    subst hs'
    rw [createResult_elections, if_neg (by omega)]
  · intro sender now electionId s' hok
    obtain ⟨-, -, -, hs'⟩ := (finalize_ok_iff s sender now electionId s').mp hok
    subst hs'
    refine ⟨?_, ?_, ?_, ?_, ?_, ?_⟩
    · intro j hj
      rw [finalizeResult_elections, if_neg hj]
    · rw [finalizeResult_elections, if_pos rfl]
    · rw [finalizeResult_elections, if_pos rfl]
    · rw [finalizeResult_elections, if_pos rfl]
    · rw [finalizeResult_elections, if_pos rfl]
    · rw [finalizeResult_elections, if_pos rfl]

/-- Witness for C8: the concrete vote of address 7 leaves the whole
election registry untouched. -/
theorem c8_witness : wVote.elections = w1.elections :=
  (c8_metadata_immutable w1).1 7 0 0 1 wVote rfl

/-- C10: in every reachable state an election record is stored (name
non-empty) exactly for identifiers below the `_nextElectionId` counter,
and the shared lookup `_requireElection` reports `ElectionNotFound`
exactly for identifiers never returned by a successful create. -/
theorem c10_existence_by_counter (s : State) (t : Nat) (hr : Reachable s t)
    (electionId : Nat) :
    ((s.elections electionId).name ≠ "" ↔ electionId < s.nextElectionId) ∧
    (requireElection s electionId = .error .ElectionNotFound ↔
      s.nextElectionId ≤ electionId) ∧
    (electionId < s.nextElectionId →
      requireElection s electionId = .ok (s.elections electionId)) := by
  have inv := reachable_inv hr
  have hiff : (s.elections electionId).name ≠ "" ↔ electionId < s.nextElectionId := by
    constructor
    · exact fun hn => allocated_lt_next inv hn
    · exact fun hlt => inv.2.1 electionId hlt
  refine ⟨hiff, ?_, ?_⟩
  · unfold requireElection
    by_cases hc : (s.elections electionId).name = ""
    · rw [if_pos hc]
      refine iff_of_true rfl ?_
      by_contra hgt
      push_neg at hgt
      exact (hiff.mpr hgt) hc
    · rw [if_neg hc]
      refine iff_of_false (by simp) ?_
      intro hle
      exact hc (by rw [(inv.1 electionId hle).1]; rfl)
  · intro hlt
    unfold requireElection
    rw [if_neg (hiff.mpr hlt)]

/-- Witness for C10: on the reachable concrete state `w1` (counter 1),
election 0 resolves and election 5 reports `ElectionNotFound`. -/
theorem c10_witness :
    requireElection w1 5 = .error .ElectionNotFound ∧
      requireElection w1 0 = .ok (w1.elections 0) := by
  refine ⟨?_, ?_⟩
  · exact (c10_existence_by_counter w1 0 w1_reachable 5).2.1.mpr (by decide)
  · exact (c10_existence_by_counter w1 0 w1_reachable 0).2.2 (by decide)

/-- A trace refuting the unrestricted sum property: create a two-option
election, accept one vote whose plaintext choice is 2 (out of range),
finalize at the closing time. -/
def cexTrace : Except Err State :=
  (createElection initState 3 0 "E" ["A", "B"] 1).bind fun p =>
    (vote p.2 7 0 p.1 2).bind fun s2 =>
      finalizeElection s2 9 1 p.1

/-- C1 counterexample: in `cexTrace` every call succeeds, so election 0
has exactly one ballot record (address 7), yet after finalization the
tallies sum to 0, not 1 — the accepted out-of-range vote incremented no
option. -/
theorem c1_counterexample :
    (match cexTrace with
      | .ok s => some (tallyVal s 0 0 + tallyVal s 0 1, s.hasVoted 0 7)
      | .error _ => none) = some (0, true) ∧ (0 : Nat) ≠ 1 :=
  ⟨rfl, by decide⟩

/-- C1 (amended): for an election created fresh, a sequence of fewer
than `2^32` accepted votes, and a successful finalization, the sum of
the revealed option tallies equals the number of accepted votes whose
plaintext choice is a valid option index — accepted votes with an
out-of-range choice leave a ballot record but add to no tally. -/
theorem c1_amended_sum (s0 : State) (creator now0 : Nat) (name : String)
    (options : List String) (endTime electionId : Nat) (s1 : State)
    (votes : List (Nat × Nat × Nat)) (s2 : State) (finSender now2 : Nat) (s3 : State)
    (hfresh : ∀ i, s0.tallies s0.nextElectionId i = none)
    (hcreate : createElection s0 creator now0 name options endTime = .ok (electionId, s1))
    (hvotes : runVotes electionId s1 votes = .ok s2)
    (hlen : votes.length < U32)
    (hfin : finalizeElection s2 finSender now2 electionId = .ok s3) :
    (Finset.range options.length).sum (fun i => tallyVal s3 electionId i) =
      (votes.filter fun v => v.2.2 < options.length).length := by
  obtain ⟨-, -, -, -, -, hid, hs1⟩ :=
    (createElection_ok_iff s0 creator now0 name options endTime electionId s1).mp hcreate
  subst hs1
  subst hid
  have hopts1 :
      ((createResult s0 creator name options endTime).elections s0.nextElectionId).options
        = options := by
    rw [createResult_elections, if_pos rfl]
  have htv1 : ∀ i,
      tallyVal (createResult s0 creator name options endTime) s0.nextElectionId i = 0 := by
    intro i
    unfold tallyVal
    rw [createResult_tallies, hfresh i]
    rfl
  have hbound : ∀ i,
      tallyVal (createResult s0 creator name options endTime) s0.nextElectionId i +
        countChoice votes i < U32 := by
    intro i
    rw [htv1 i]
    have := countChoice_le_length votes i
    omega
  obtain ⟨hel2, hupd2, -⟩ :=
    runVotes_tally s0.nextElectionId votes
      (createResult s0 creator name options endTime) s2 hvotes hbound
  obtain ⟨-, -, -, hs3⟩ :=
    (finalize_ok_iff s2 finSender now2 s0.nextElectionId s3).mp hfin
  subst hs3
  have hopts2 : (s2.elections s0.nextElectionId).options = options := by
    rw [hel2, hopts1]
  have htv3 : ∀ i, i < options.length →
      tallyVal (finalizeResult s2 s0.nextElectionId) s0.nextElectionId i =
        tallyVal s2 s0.nextElectionId i := by
    intro i hi
    unfold tallyVal
    rw [finalizeResult_tallies, if_pos ⟨rfl, by rw [hopts2]; exact hi⟩]
    rfl
  have hsum : ∀ i ∈ Finset.range options.length,
      tallyVal (finalizeResult s2 s0.nextElectionId) s0.nextElectionId i =
        countChoice votes i := by
    intro i hi
    have hi' := Finset.mem_range.mp hi
    rw [htv3 i hi', hupd2 i (by rw [hopts1]; exact hi'), htv1 i, Nat.zero_add]
  rw [Finset.sum_congr rfl hsum, sum_countChoice]

/-- The three accepted votes of the concrete sum scenario: addresses 7,
8 and 9 vote at time 0 for options 1, 0 and 1. -/
def wVotes : List (Nat × Nat × Nat) := [(7, 0, 1), (8, 0, 0), (9, 0, 1)]

/-- State after running `wVotes` on election 0 of `w1`. -/
def wRun : State :=
  match runVotes 0 w1 wVotes with
  | .ok s => s
  | .error _ => initState

/-- State after finalizing election 0 of `wRun` at time 1. -/
def wSum : State :=
  match finalizeElection wRun 2 1 0 with
  | .ok s => s
  | .error _ => initState

/-- Witness for C1 (amended): three accepted in-range votes produce
tallies summing to 3. -/
theorem c1_witness :
    (Finset.range 2).sum (fun i => tallyVal wSum 0 i) = 3 := by
  have h := c1_amended_sum initState 3 0 "E" ["A", "B"] 1 0 w1 wVotes wRun 2 1 wSum
    (fun i => rfl) rfl rfl (by decide) rfl
  exact h.trans (by rfl)

end HiddenElector
